import Mathlib

/-!
Verification of the changelog-entry pipeline of the `shipped` GitHub action.

The development shallowly embeds the source files `src/entry.ts` and
`src/index.ts` over `List Char` (one `Char` per JavaScript string code
point).  Pure string manipulation (template literals, `split`, `join`,
`trim`, `slice`, `Set` de-duplication, the header regular expression) is
translated function by function; the I/O layer (GitHub queries, the chat
completion call, the file system) is modelled by passing the values those
calls would return as explicit parameters, with file writes recorded in an
explicit trace.
-/

/-- String literal to character list; JavaScript strings are modelled as
`List Char`. -/
def str (x : String) : List Char := x.data

/-- Substring occurrence: `p` occurs contiguously somewhere inside `l`. -/
def hasSub (p l : List Char) : Prop := ∃ a b, l = a ++ p ++ b

/-- Decidable prefix test on character lists (used to model both
`String.prototype.startsWith` and occurrence search for `split`). -/
def isPre : List Char → List Char → Bool
| [], _ => true
| _ :: _, [] => false
| a :: as, b :: bs => a = b && isPre as bs

/-- Index of the first occurrence of `sep` inside `l`
(JavaScript `String.prototype.indexOf`). -/
def findSubIdx (sep : List Char) : List Char → Option Nat
| [] => if isPre sep [] then some 0 else none
| c :: t => if isPre sep (c :: t) then some 0 else (findSubIdx sep t).map (· + 1)

/-- Fuelled worker for `jsSplit`; fuel bounds the number of separator
occurrences, so fuel equal to the length of the string is always enough
for a non-empty separator. -/
def jsSplitF (sep : List Char) : Nat → List Char → List (List Char)
| 0, l => [l]
| fuel + 1, l =>
  match findSubIdx sep l with
  | none => [l]
  | some i => l.take i :: jsSplitF sep fuel (l.drop (i + sep.length))

/-- JavaScript `String.prototype.split` with a non-empty string separator. -/
def jsSplit (sep l : List Char) : List (List Char) := jsSplitF sep l.length l

/-- JavaScript `Array.prototype.join`. -/
def joinSep (sep : List Char) : List (List Char) → List Char
| [] => []
| [x] => x
| x :: y :: ys => x ++ sep ++ joinSep sep (y :: ys)

/-- Worker for `jsDedup`: `seen` accumulates the values already emitted. -/
def jsDedupAux : List (List Char) → List (List Char) → List (List Char)
| [], _ => []
| x :: xs, seen => if x ∈ seen then jsDedupAux xs seen else x :: jsDedupAux xs (x :: seen)

/-- De-duplication keeping the first occurrence of each value, in order:
the behaviour of `[...new Set(xs)]` in JavaScript. -/
def jsDedup (l : List (List Char)) : List (List Char) := jsDedupAux l []

/-- The characters removed by JavaScript `String.prototype.trim`:
ECMAScript WhiteSpace (TAB, VT, FF, SP, NBSP, ZWNBSP and the Unicode Zs
category) together with the four LineTerminator characters. -/
def isJsWS (c : Char) : Bool :=
  c = ' ' || c = '\t' || c = '\n' || c = '\r' || c = '\x0b' || c = '\x0c' ||
  c = '\u00a0' || c = '\u1680' || ('\u2000' ≤ c && c ≤ '\u200a') ||
  c = '\u2028' || c = '\u2029' || c = '\u202f' || c = '\u205f' ||
  c = '\u3000' || c = '\ufeff'

/-- JavaScript `String.prototype.trim`. -/
def jsTrim (l : List Char) : List Char :=
  ((l.dropWhile isJsWS).reverse.dropWhile isJsWS).reverse

/-- The characters matched by `.` in a JavaScript regular expression
without the `s` flag: everything except the four LineTerminator
characters. -/
def isRegexDot (c : Char) : Bool :=
  c ≠ '\n' && c ≠ '\r' && c ≠ '\u2028' && c ≠ '\u2029'

/-!
The Document Merger (`prependToChangelog` in `src/entry.ts`).

The header regular expression of the source is
`^# .+\n+(?:(?:>.+\n+)|(?:[^#].+\n+))*`.  Because the whole pattern ends
with a greedy `*` group and nothing follows it, the JavaScript match is
the straightforward greedy line-by-line parse below; the `>.+\n+`
alternative is subsumed by `[^#].+\n+` since `>` is itself matched by
`[^#]` and both alternatives are otherwise identical.
-/

/-- The mandatory part `^# .+\n+` of the header pattern.  On success,
returns the matched prefix and the remaining suffix. -/
def matchHeadLine (l : List Char) : Option (List Char × List Char) :=
  match l with
  | c1 :: c2 :: rest =>
    if c1 = '#' then
      if c2 = ' ' then
        let line := rest.takeWhile isRegexDot
        let r1 := rest.dropWhile isRegexDot
        if line = [] then none
        else
          let nls := r1.takeWhile (fun x => x = '\n')
          let r2 := r1.dropWhile (fun x => x = '\n')
          if nls = [] then none
          else some (c1 :: c2 :: (line ++ nls), r2)
      else none
    else none
  | _ => none

/-- One iteration of the group `(?:(?:>.+\n+)|(?:[^#].+\n+))`. -/
def matchPreLine (l : List Char) : Option (List Char × List Char) :=
  match l with
  | [] => none
  | c :: rest =>
    if c = '#' then none
    else
      let line := rest.takeWhile isRegexDot
      let r1 := rest.dropWhile isRegexDot
      if line = [] then none
      else
        let nls := r1.takeWhile (fun x => x = '\n')
        let r2 := r1.dropWhile (fun x => x = '\n')
        if nls = [] then none
        else some (c :: (line ++ nls), r2)

/-- Greedy repetition of `matchPreLine`.  Every successful iteration
consumes at least one character, so fuel equal to the length of the input
yields the full greedy repetition. -/
def matchPreLinesF : Nat → List Char → List Char × List Char
| 0, l => ([], l)
| fuel + 1, l =>
  match matchPreLine l with
  | none => ([], l)
  | some (m, r) =>
    let p := matchPreLinesF fuel r
    (m ++ p.1, p.2)

/-- `existingContent.match(/^# .+\n+(?:(?:>.+\n+)|(?:[^#].+\n+))*/)`:
the matched header string, if the pattern matches. -/
def matchHeader (l : List Char) : Option (List Char) :=
  match matchHeadLine l with
  | none => none
  | some (m, r) => some (m ++ (matchPreLinesF r.length r).1)

/-- The default header synthesized for an empty or absent changelog. -/
def defaultHeader : List Char :=
  str "# Changelog\n\nAll notable changes to this project.\n\n---\n\n"

/-- `prependToChangelog` from `src/entry.ts`: the file system is modelled
by an `Option (List Char)` (`none` when the file does not exist); the
function returns the content written back. -/
def prependToChangelog (entry : List Char) (file : Option (List Char)) : List Char :=
  let existingContent := file.getD []
  match matchHeader existingContent with
  | some header => header ++ entry ++ existingContent.drop header.length
  | none =>
    if jsTrim existingContent = [] then defaultHeader ++ entry
    else entry ++ existingContent

/-!
Data model and entry pipeline (`src/entry.ts`).
-/

/-- One label object (`{ name }`). -/
structure LabelData where
  name : List Char

/-- The pull-request snapshot handed to `generateEntry` (interface
`PRData` of the source): `user` is the author login when present, `labels`
the optional label list. -/
structure PRData where
  number : Nat
  title : List Char
  body : Option (List Char)
  user : Option (List Char)
  merged_at : Option (List Char)
  labels : Option (List LabelData)

/-- One commit as returned by `pulls.listCommits`; only the commit message
is consumed by the source. -/
structure CommitData where
  message : List Char

/-- One review as returned by `pulls.listReviews`; `login` is
`review.user?.login` (`none` when the user is absent). -/
structure Review where
  state : List Char
  login : Option (List Char)

/-- One changed file as returned by `pulls.listFiles`. -/
structure FileData where
  filename : List Char

/-- `PullRequestDetails` of the source. -/
structure Details where
  title : List Char
  body : List Char
  author : List Char
  reviewers : List (List Char)
  commits : List (List Char)
  filesChanged : List (List Char)
  labels : List (List Char)
  mergedAt : List Char

/-- The approved-reviewer logins before de-duplication:
`reviews.filter(r => r.state === 'APPROVED').map(r => r.user?.login).filter(login => !!login)`
(the falsiness filter removes both absent and empty logins). -/
def approvedLogins (reviews : List Review) : List (List Char) :=
  ((reviews.filter (fun r => r.state = str "APPROVED")).map Review.login).filterMap
    (fun o => match o with
      | some l => if l = [] then none else some l
      | none => none)

/-- `[...new Set(...)]` over the approved logins. -/
def approvedReviewers (reviews : List Review) : List (List Char) :=
  jsDedup (approvedLogins reviews)

/-- The pure part of `fetchPRDetails`: builds `PullRequestDetails` from the
snapshot and the three query results.  `now` stands for
`new Date().toISOString()`, used only when `merged_at` is absent or
empty (JavaScript `||`). -/
def mkDetails (pr : PRData) (now : List Char) (commits : List CommitData)
    (reviews : List Review) (files : List FileData) : Details :=
  { title := pr.title
    body := pr.body.getD []
    author :=
      match pr.user with
      | none => str "unknown"
      | some l => if l = [] then str "unknown" else l
    reviewers := approvedReviewers reviews
    commits := commits.map CommitData.message
    filesChanged := files.map FileData.filename
    labels := (pr.labels.getD []).map LabelData.name
    mergedAt :=
      match pr.merged_at with
      | none => now
      | some m => if m = [] then now else m }

/-- `c.split('\n')[0]`: the first line of a commit message. -/
def firstLine (c : List Char) : List Char := (jsSplit (str "\n") c).headD []

/-- The commit summary of `buildPrompt`: first 5 commits, each reduced to
its first line and bulleted, joined by newlines. -/
def commitSummary (commits : List (List Char)) : List Char :=
  joinSep (str "\n") ((commits.take 5).map (fun c => str "- " ++ firstLine c))

/-- The files-changed summary of `buildPrompt`: first 10 paths joined by
a comma. -/
def filesSummary (files : List (List Char)) : List Char :=
  joinSep (str ", ") (files.take 10)

/-- `details.labels.join(', ') || 'none'`. -/
def labelsText (labels : List (List Char)) : List Char :=
  if joinSep (str ", ") labels = [] then str "none" else joinSep (str ", ") labels

/-- `buildPrompt` from `src/entry.ts`. -/
def buildPrompt (details : Details) : List Char :=
  str "Generate a changelog entry for this merged pull request:\n\n**Title:** " ++
  details.title ++
  str "\n\n**Description:**\n" ++
  (if details.body = [] then str "No description provided." else details.body) ++
  str "\n\n**Commits:**\n" ++
  commitSummary details.commits ++
  str "\n\n**Files changed:** " ++
  filesSummary details.filesChanged ++
  str "\n\n**Labels:** " ++
  labelsText details.labels ++
  str "\n\nWrite a user-friendly changelog entry with:\n1. A short, descriptive title (with appropriate emoji)\n2. 1-2 sentences explaining the change in plain language\n3. Optional: 2-3 bullet points if there are multiple aspects\n\nFocus on the user impact, not implementation details."

/-- `new Date(details.mergedAt).toISOString().split('T')[0]`.  The
JavaScript `Date` parse / `toISOString` round trip is modelled as the
identity on the canonical UTC ISO-8601 timestamps the GitHub API
delivers, after which the source keeps the part before the first T. -/
def jsDateToISODate (mergedAt : List Char) : List Char :=
  (jsSplit (str "T") mergedAt).headD []

/-- The attribution line computed inside `formatEntry`: the author and the
reviewers are prefixed with an at sign and joined into `contributors`
with bullet separators, then the author mention is recovered with
`contributors.split(' • ')[0]` when there is at least one reviewer. -/
def attributionOf (d : Details) : List Char :=
  let contributors := joinSep (str " • ") ((d.author :: d.reviewers).map (fun u => '@' :: u))
  if d.reviewers.length > 0 then
    str "**Shipped by** " ++ (jsSplit (str " • ") contributors).headD [] ++
    str " • **Reviewed by** " ++ joinSep (str ", ") (d.reviewers.map (fun r => '@' :: r))
  else
    str "**Shipped by** @" ++ d.author

/-- `formatEntry` from `src/entry.ts`. -/
def formatEntry (aiContent : List Char) (d : Details) : List Char :=
  str "## " ++ jsDateToISODate d.mergedAt ++ str "\n\n" ++ jsTrim aiContent ++
  str "\n\n" ++ attributionOf d ++ str "\n\n---\n\n"

/-- `generateWithAI`: `api` models the chat-completion call on the built
prompt, returning a transport error, or `response.choices[0]?.message?.content`
(`none` when absent).  A missing or empty content is rejected
(`if (!content) throw new Error('No response from OpenAI')`); otherwise
the content is formatted into the entry. -/
def generateWithAI (api : List Char → Except (List Char) (Option (List Char)))
    (d : Details) : Except (List Char) (List Char) :=
  match api (buildPrompt d) with
  | .error e => .error e
  | .ok none => .error (str "No response from OpenAI")
  | .ok (some content) =>
    if content = [] then .error (str "No response from OpenAI")
    else .ok (formatEntry content d)

/-- `fetchPRDetails`: the three upstream queries are awaited in order
(commits, reviews, files) and the first failure propagates. -/
def fetchPRDetails (pr : PRData) (now : List Char)
    (commitsR : Except (List Char) (List CommitData))
    (reviewsR : Except (List Char) (List Review))
    (filesR : Except (List Char) (List FileData)) : Except (List Char) Details :=
  match commitsR with
  | .error e => .error e
  | .ok commits =>
    match reviewsR with
    | .error e => .error e
    | .ok reviews =>
      match filesR with
      | .error e => .error e
      | .ok files => .ok (mkDetails pr now commits reviews files)

/-- Outcome of one run of `generateEntry`: the returned entry or the
propagated error, together with the trace of `fs.writeFileSync` calls on
the changelog path (the document on disk is unchanged exactly when the
trace is empty). -/
structure RunResult where
  result : Except (List Char) (List Char)
  writes : List (List Char)

/-- `generateEntry` from `src/entry.ts`: fetch details, generate with AI,
then prepend to the changelog; each stage is awaited and a failure
prevents every later stage from running. -/
def generateEntry (pr : PRData) (now : List Char)
    (commitsR : Except (List Char) (List CommitData))
    (reviewsR : Except (List Char) (List Review))
    (filesR : Except (List Char) (List FileData))
    (api : List Char → Except (List Char) (Option (List Char)))
    (file : Option (List Char)) : RunResult :=
  match fetchPRDetails pr now commitsR reviewsR filesR with
  | .error e => ⟨.error e, []⟩
  | .ok details =>
    match generateWithAI api details with
    | .error e => ⟨.error e, []⟩
    | .ok entry => ⟨.ok entry, [prependToChangelog entry file]⟩

/-!
Configuration resolution (`getAIConfig` in `src/index.ts`).
-/

/-- The configuration failure of `getAIConfig` (`Unknown provider: ...`). -/
inductive ConfigError where
| unknownProvider (provider : List Char)
deriving DecidableEq

/-- The `baseURL` branch of `getAIConfig`. -/
def resolveBaseURL (provider : List Char) : Except ConfigError (List Char) :=
  if provider = str "openai" then .ok (str "https://api.openai.com/v1")
  else if provider = str "openrouter" then .ok (str "https://openrouter.ai/api/v1")
  else if isPre (str "http") provider then .ok provider
  else .error (.unknownProvider provider)

/-- `core.getInput('provider') || 'openai'` followed by the `baseURL`
branch: an empty provider input defaults to the OpenAI provider. -/
def getAIConfigBaseURL (providerInput : List Char) : Except ConfigError (List Char) :=
  resolveBaseURL (if providerInput = [] then str "openai" else providerInput)

/-!
Definitions following the words of the specification (used only to state
claims about the Document Merger as the specification phrases them, for
comparison against the source behaviour above).
-/

/-- Fuelled worker for `linesKeepNL`; each step consumes at least one
character, so fuel equal to the length of the input is enough. -/
def linesKeepNLF : Nat → List Char → List (List Char)
| 0, _ => []
| fuel + 1, l =>
  match l with
  | [] => []
  | _ :: _ =>
    let line := l.takeWhile (fun x => x ≠ '\n')
    let rest := l.dropWhile (fun x => x ≠ '\n')
    match rest with
    | '\n' :: r => (line ++ ['\n']) :: linesKeepNLF fuel r
    | _ => [line]

/-- Split a document into lines, each keeping its terminating newline
(the final line may lack one); concatenating the lines restores the
document. -/
def linesKeepNL (l : List Char) : List (List Char) := linesKeepNLF l.length l

/-- Spec wording: a line is a level-1 heading when it starts with a hash
mark followed by a space. -/
def specLevel1 (line : List Char) : Bool :=
  match line with
  | a :: b :: _ => a = '#' && b = ' '
  | _ => false

/-- Spec wording: a heading line (of any level) starts with a hash mark. -/
def specIsHeadingLine (line : List Char) : Bool :=
  match line with
  | c :: _ => c = '#'
  | [] => false

/-- Spec wording: an entry separator line is a horizontal rule `---`. -/
def specIsSepLine (line : List Char) : Bool := jsTrim line = str "---"

/-- Spec wording: a preamble line is neither a heading nor an entry
separator. -/
def specPreambleLine (line : List Char) : Bool :=
  !specIsHeadingLine line && !specIsSepLine line

/-- Modelled from the spec wording of claim C1 (spec section 4.5, branch 1,
and section 8): the header+preamble block is the heading line plus the
following contiguous lines that are neither headings nor entry
separators, the new entry is inserted immediately after that block, and
the remainder of the document is unchanged. -/
def specHeaderInsert (entry doc : List Char) : List Char :=
  match linesKeepNL doc with
  | [] => entry ++ doc
  | first :: rest =>
    first ++ (rest.takeWhile specPreambleLine).flatten ++ entry ++
    (rest.dropWhile specPreambleLine).flatten

/-!
Lemmas about the string helpers.
-/

theorem isPre_append_self (xs ys : List Char) : isPre xs (xs ++ ys) = true := by
  induction xs with
  | nil => rfl
  | cons a as ih => simp [isPre, ih]

theorem findSubIdx_nil_of_ne (sep : List Char) (h : sep ≠ []) :
    findSubIdx sep [] = none := by
  cases sep with
  | nil => exact absurd rfl h
  | cons a as => simp [findSubIdx, isPre]

theorem isPre_length_le :
    ∀ (sep l : List Char), isPre sep l = true → sep.length ≤ l.length := by
  intro sep
  induction sep with
  | nil => intro l _; simp
  | cons a as ih =>
    intro l h
    cases l with
    | nil => simp [isPre] at h
    | cons b bs =>
      simp only [isPre, Bool.and_eq_true] at h
      have := ih bs h.2
      simp only [List.length_cons]
      omega

theorem findSubIdx_le (sep : List Char) :
    ∀ (l : List Char) (i : Nat), findSubIdx sep l = some i → i + sep.length ≤ l.length := by
  intro l
  induction l with
  | nil =>
    intro i h
    by_cases hp : isPre sep [] = true
    · simp only [findSubIdx, hp, if_true, Option.some.injEq] at h
      have := isPre_length_le sep [] hp
      omega
    · simp [findSubIdx, hp] at h
  | cons c t ih =>
    intro i h
    by_cases hp : isPre sep (c :: t) = true
    · simp only [findSubIdx, hp, if_true, Option.some.injEq] at h
      have := isPre_length_le sep (c :: t) hp
      omega
    · simp only [findSubIdx, hp, if_false] at h
      cases hf : findSubIdx sep t with
      | none => rw [hf] at h; simp at h
      | some j =>
        rw [hf] at h
        simp at h
        have := ih j hf
        simp only [List.length_cons]
        omega

theorem findSubIdx_single_none (ch : Char) :
    ∀ (l : List Char), ch ∉ l → findSubIdx [ch] l = none := by
  intro l
  induction l with
  | nil => intro _; simp [findSubIdx, isPre]
  | cons c t ih =>
    intro h
    have hc : ch ≠ c := fun e => h (e ▸ List.mem_cons_self c t)
    have ht : ch ∉ t := fun e => h (List.mem_cons_of_mem c e)
    have hp : isPre [ch] (c :: t) = false := by
      simp [isPre, hc]
    simp [findSubIdx, hp, ih ht]

theorem findSubIdx_single_app (ch : Char) (r : List Char) :
    ∀ (a : List Char), ch ∉ a → findSubIdx [ch] (a ++ ch :: r) = some a.length := by
  intro a
  induction a with
  | nil => simp [findSubIdx, isPre]
  | cons c a' ih =>
    intro h
    have hc : ch ≠ c := fun e => h (e ▸ List.mem_cons_self c a')
    have ha : ch ∉ a' := fun e => h (List.mem_cons_of_mem c e)
    have hp : isPre [ch] (c :: (a' ++ ch :: r)) = false := by
      simp [isPre, hc]
    simp [findSubIdx, hp, ih ha]

theorem str_bullet_sep : str " • " = [' ', '•', ' '] := rfl

theorem findSubIdx_bullet (r : List Char) :
    ∀ (a : List Char), '•' ∉ a →
      findSubIdx [' ', '•', ' '] (a ++ ([' ', '•', ' '] ++ r)) = some a.length := by
  intro a
  induction a with
  | nil =>
    intro _
    have h1 : isPre [' ', '•', ' '] (([' ', '•', ' '] : List Char) ++ r) = true :=
      isPre_append_self _ _
    show findSubIdx [' ', '•', ' '] (' ' :: '•' :: ' ' :: r) = some 0
    have h2 : isPre [' ', '•', ' '] (' ' :: '•' :: ' ' :: r) = true := h1
    simp [findSubIdx, h2]
  | cons c a' ih =>
    intro h
    have hb : '•' ∉ a' := fun e => h (List.mem_cons_of_mem c e)
    have hp : isPre [' ', '•', ' '] (c :: (a' ++ ([' ', '•', ' '] ++ r))) = false := by
      cases ha' : a' with
      | nil =>
        simp [isPre, show ('•' : Char) ≠ ' ' from by decide]
      | cons c2 t2 =>
        have hc2 : ('•' : Char) ≠ c2 := by
          intro e
          exact h (by simp [ha', ← e])
        simp [isPre, hc2]
    show findSubIdx [' ', '•', ' '] (c :: (a' ++ ([' ', '•', ' '] ++ r))) = some (a'.length + 1)
    simp only [findSubIdx, hp, if_false, Bool.false_eq_true]
    rw [ih hb]
    rfl

theorem jsSplitF_of_none (sep l : List Char) (h : findSubIdx sep l = none) :
    ∀ fuel, jsSplitF sep fuel l = [l] := by
  intro fuel
  cases fuel with
  | zero => rfl
  | succ n => simp [jsSplitF, h]

theorem jsSplit_head_of_some (sep l : List Char) (i : Nat) (hs : sep ≠ [])
    (h : findSubIdx sep l = some i) : (jsSplit sep l).headD [] = l.take i := by
  cases l with
  | nil => rw [findSubIdx_nil_of_ne sep hs] at h; cases h
  | cons c t =>
    show (jsSplitF sep (c :: t).length (c :: t)).headD [] = _
    simp only [List.length_cons]
    simp [jsSplitF, h]

theorem joinSep_cons_cons (sep x y : List Char) (ys : List (List Char)) :
    joinSep sep (x :: y :: ys) = x ++ sep ++ joinSep sep (y :: ys) := rfl

theorem take_len_append (a b : List Char) : (a ++ b).take a.length = a :=
  List.take_left a b

theorem drop_len_append (a b : List Char) : (a ++ b).drop a.length = b :=
  List.drop_left a b

theorem jsSplit_cons_of_some (sep l : List Char) (i : Nat) (hs : sep ≠ [])
    (h : findSubIdx sep l = some i) :
    ∃ tail, jsSplit sep l = l.take i :: tail := by
  cases l with
  | nil => rw [findSubIdx_nil_of_ne sep hs] at h; cases h
  | cons c t =>
    refine ⟨jsSplitF sep (c :: t).length.pred ((c :: t).drop (i + sep.length)), ?_⟩
    show jsSplitF sep (c :: t).length (c :: t) = _
    simp only [List.length_cons]
    simp [jsSplitF, h]

/-- The split head: everything before the first separator occurrence. -/
theorem jsSplit_headD (sep l : List Char) (i : Nat) (hs : sep ≠ [])
    (h : findSubIdx sep l = some i) : (jsSplit sep l).headD [] = l.take i := by
  obtain ⟨tail, ht⟩ := jsSplit_cons_of_some sep l i hs h
  simp [ht]

/-- Fuel insensitivity of the split worker once the fuel covers the
length of the string. -/
theorem jsSplitF_congr (sep : List Char) (hs : sep ≠ []) :
    ∀ (n m : Nat) (l : List Char), l.length ≤ n → l.length ≤ m →
      jsSplitF sep n l = jsSplitF sep m l := by
  intro n
  induction n with
  | zero =>
    intro m l hn _
    have : l = [] := List.length_eq_zero.mp (Nat.le_zero.mp hn)
    subst this
    cases m with
    | zero => rfl
    | succ k => simp [jsSplitF, findSubIdx_nil_of_ne sep hs]
  | succ n ih =>
    intro m l hn hm
    cases m with
    | zero =>
      have : l = [] := List.length_eq_zero.mp (Nat.le_zero.mp hm)
      subst this
      simp [jsSplitF, findSubIdx_nil_of_ne sep hs]
    | succ k =>
      cases hf : findSubIdx sep l with
      | none => simp [jsSplitF, hf]
      | some i =>
        have hle : i + sep.length ≤ l.length := findSubIdx_le sep l i hf
        have hsl : 0 < sep.length := by
          cases sep with
          | nil => exact absurd rfl hs
          | cons a as => simp
        have hdrop : (l.drop (i + sep.length)).length ≤ n := by
          simp only [List.length_drop]
          omega
        have hdrop2 : (l.drop (i + sep.length)).length ≤ k := by
          simp only [List.length_drop]
          omega
        simp only [jsSplitF, hf]
        rw [ih k (l.drop (i + sep.length)) hdrop hdrop2]

/-- `jsSplit` is a left inverse of `joinSep` on a single-character
separator that occurs in none of the pieces. -/
theorem jsSplit_joinSep (ch : Char) :
    ∀ (ps : List (List Char)), ps ≠ [] → (∀ p ∈ ps, ch ∉ p) →
      jsSplit [ch] (joinSep [ch] ps) = ps := by
  intro ps
  induction ps with
  | nil => intro h _; exact absurd rfl h
  | cons p ps' ih =>
    intro _ hmem
    cases ps' with
    | nil =>
      have hnone : findSubIdx [ch] p = none :=
        findSubIdx_single_none ch p (hmem p (List.mem_cons_self p []))
      show jsSplitF [ch] (joinSep [ch] [p]).length (joinSep [ch] [p]) = [p]
      exact jsSplitF_of_none [ch] p hnone _
    | cons q qs =>
      have hp : ch ∉ p := hmem p (List.mem_cons_self p _)
      have hrest : ∀ x ∈ q :: qs, ch ∉ x := fun x hx => hmem x (List.mem_cons_of_mem p hx)
      have hjoin : joinSep [ch] (p :: q :: qs) = p ++ ch :: joinSep [ch] (q :: qs) := by
        rw [joinSep_cons_cons]
        simp
      have hidx : findSubIdx [ch] (joinSep [ch] (p :: q :: qs)) = some p.length := by
        rw [hjoin]
        exact findSubIdx_single_app ch (joinSep [ch] (q :: qs)) p hp
      have hlen : (joinSep [ch] (p :: q :: qs)).length =
          p.length + 1 + (joinSep [ch] (q :: qs)).length := by
        rw [hjoin]
        simp [List.length_append]
        omega
      have hch : ([ch] : List Char) ≠ [] := by simp
      cases hL : (joinSep [ch] (p :: q :: qs)).length with
      | zero => omega
      | succ n =>
        show jsSplitF [ch] (joinSep [ch] (p :: q :: qs)).length (joinSep [ch] (p :: q :: qs)) = _
        rw [hL]
        simp only [jsSplitF, hidx]
        have htake : (joinSep [ch] (p :: q :: qs)).take p.length = p := by
          rw [hjoin]
          exact take_len_append p _
        have hdrop : (joinSep [ch] (p :: q :: qs)).drop (p.length + 1) = joinSep [ch] (q :: qs) := by
          rw [hjoin]
          have : p ++ ch :: joinSep [ch] (q :: qs) = (p ++ [ch]) ++ joinSep [ch] (q :: qs) := by
            simp
          rw [this]
          have hlen2 : p.length + 1 = (p ++ [ch]).length := by simp
          rw [hlen2]
          exact drop_len_append _ _
        rw [htake]
        have hfuel : jsSplitF [ch] n ((joinSep [ch] (p :: q :: qs)).drop (p.length + [ch].length)) =
            jsSplit [ch] (joinSep [ch] (q :: qs)) := by
          show _ = jsSplitF [ch] (joinSep [ch] (q :: qs)).length (joinSep [ch] (q :: qs))
          have e1 : (joinSep [ch] (p :: q :: qs)).drop (p.length + [ch].length) =
              joinSep [ch] (q :: qs) := by
            simpa using hdrop
          rw [e1]
          apply jsSplitF_congr [ch] hch
          · omega
          · exact Nat.le_refl _
        rw [hfuel, ih (by simp) hrest]

/-- Recovering the author mention from the joined contributor string:
splitting on the bullet separator returns the at-prefixed author whenever
the author login does not itself contain a bullet. -/
theorem contributors_split_head (a : List Char) (rest : List Char) (h : '•' ∉ a) :
    (jsSplit (str " • ") (('@' :: a) ++ (str " • " ++ rest))).headD [] = '@' :: a := by
  have hb : '•' ∉ '@' :: a := by
    intro hm
    cases hm with
    | tail _ hm => exact h hm
  have hidx : findSubIdx (str " • ") (('@' :: a) ++ (str " • " ++ rest)) =
      some ('@' :: a).length := by
    rw [str_bullet_sep]
    exact findSubIdx_bullet rest ('@' :: a) hb
  have hs : str " • " ≠ [] := by rw [str_bullet_sep]; simp
  rw [jsSplit_headD (str " • ") _ _ hs hidx]
  exact take_len_append ('@' :: a) _

theorem not_mem_of_findSubIdx_none (ch : Char) :
    ∀ (l : List Char), findSubIdx [ch] l = none → ch ∉ l := by
  intro l
  induction l with
  | nil => intro _; simp
  | cons c t ih =>
    intro h
    by_cases hp : isPre [ch] (c :: t) = true
    · simp [findSubIdx, hp] at h
    · have hc : ch ≠ c := by
        intro e
        exact hp (by simp [isPre, e])
      have ht : findSubIdx [ch] t = none := by
        simp only [findSubIdx, hp, if_false, Bool.false_eq_true, Option.map_eq_none'] at h ⊢
        exact h
      intro hm
      cases hm with
      | head => exact hc rfl
      | tail _ hm => exact ih ht hm

theorem takeWhile_of_findSubIdx_none (ch : Char) (l : List Char)
    (h : findSubIdx [ch] l = none) : l.takeWhile (fun x => x ≠ ch) = l := by
  rw [List.takeWhile_eq_self_iff]
  intro x hx
  simp only [ne_eq, decide_eq_true_eq]
  intro e
  exact not_mem_of_findSubIdx_none ch l h (e ▸ hx)

theorem take_of_findSubIdx_some (ch : Char) :
    ∀ (l : List Char) (i : Nat), findSubIdx [ch] l = some i →
      l.take i = l.takeWhile (fun x => x ≠ ch) := by
  intro l
  induction l with
  | nil =>
    intro i h
    rw [findSubIdx_nil_of_ne [ch] (by simp)] at h
    cases h
  | cons c t ih =>
    intro i h
    by_cases hp : isPre [ch] (c :: t) = true
    · have hc : ch = c := by
        simpa [isPre] using hp
      simp only [findSubIdx, hp, if_true, Option.some.injEq] at h
      subst h
      simp [List.takeWhile_cons, ← hc]
    · have hc : ch ≠ c := by
        intro e
        exact hp (by simp [isPre, e])
      simp only [findSubIdx, hp, if_false, Bool.false_eq_true] at h
      cases hf : findSubIdx [ch] t with
      | none => rw [hf] at h; cases h
      | some j =>
        rw [hf] at h
        simp only [Option.map_some', Option.some.injEq] at h
        subst h
        simp [List.takeWhile_cons, Ne.symm hc, ih j hf]

theorem firstLine_eq_takeWhile (c : List Char) :
    firstLine c = c.takeWhile (fun x => x ≠ '\n') := by
  show (jsSplit ['\n'] c).headD [] = _
  cases hf : findSubIdx ['\n'] c with
  | none =>
    show (jsSplitF ['\n'] c.length c).headD [] = _
    rw [jsSplitF_of_none ['\n'] c hf]
    show c = List.takeWhile (fun x => x ≠ '\n') c
    exact (takeWhile_of_findSubIdx_none '\n' c hf).symm
  | some i =>
    rw [jsSplit_headD ['\n'] c i (by simp) hf]
    exact take_of_findSubIdx_some '\n' c i hf

theorem not_newline_mem_firstLine (c : List Char) : '\n' ∉ firstLine c := by
  rw [firstLine_eq_takeWhile]
  intro hm
  have := List.mem_takeWhile_imp hm
  simp at this

theorem mem_jsDedupAux (x : List Char) :
    ∀ (l seen : List (List Char)), x ∈ jsDedupAux l seen ↔ (x ∈ l ∧ x ∉ seen) := by
  intro l
  induction l with
  | nil => intro seen; simp [jsDedupAux]
  | cons y l' ih =>
    intro seen
    by_cases hy : y ∈ seen
    · simp only [jsDedupAux, hy, if_true]
      rw [ih seen]
      constructor
      · rintro ⟨h1, h2⟩
        exact ⟨List.mem_cons_of_mem y h1, h2⟩
      · rintro ⟨h1, h2⟩
        refine ⟨?_, h2⟩
        cases h1 with
        | head => exact absurd hy h2
        | tail _ h => exact h
    · simp only [jsDedupAux, hy, if_false]
      constructor
      · intro h
        cases h with
        | head => exact ⟨List.mem_cons_self _ _, hy⟩
        | tail _ h =>
          have h' : x ∈ jsDedupAux l' (y :: seen) := h
          rw [ih (y :: seen)] at h'
          obtain ⟨h1, h2⟩ := h' 
          refine ⟨List.mem_cons_of_mem y h1, fun hx => h2 (List.mem_cons_of_mem y hx)⟩
      · rintro ⟨h1, h2⟩
        cases h1 with
        | head => exact List.mem_cons_self _ _
        | tail _ h1 =>
          by_cases hxy : x = y
          · subst hxy; exact List.mem_cons_self _ _
          · refine List.mem_cons_of_mem _ ?_
            rw [ih (y :: seen)]
            refine ⟨h1, ?_⟩
            intro hm
            cases hm with
            | head => exact hxy rfl
            | tail _ hm => exact h2 hm

theorem mem_jsDedup (x : List Char) (l : List (List Char)) :
    x ∈ jsDedup l ↔ x ∈ l := by
  show x ∈ jsDedupAux l [] ↔ _
  rw [mem_jsDedupAux]
  simp

theorem nodup_jsDedupAux :
    ∀ (l seen : List (List Char)), (jsDedupAux l seen).Nodup := by
  intro l
  induction l with
  | nil => intro seen; exact List.nodup_nil
  | cons y l' ih =>
    intro seen
    by_cases hy : y ∈ seen
    · simpa [jsDedupAux, hy] using ih seen
    · simp only [jsDedupAux, hy, if_false]
      refine List.Nodup.cons ?_ (ih (y :: seen))
      intro hm
      rw [mem_jsDedupAux] at hm
      exact hm.2 (List.mem_cons_self y seen)

theorem nodup_jsDedup (l : List (List Char)) : (jsDedup l).Nodup :=
  nodup_jsDedupAux l []

theorem jsTrim_nil_of_all (l : List Char) (h : ∀ c ∈ l, isJsWS c = true) :
    jsTrim l = [] := by
  show ((l.dropWhile isJsWS).reverse.dropWhile isJsWS).reverse = []
  have h1 : l.dropWhile isJsWS = [] := List.dropWhile_eq_nil_iff.mpr h
  rw [h1]
  rfl

theorem all_of_jsTrim_nil (l : List Char) (h : jsTrim l = []) :
    ∀ c ∈ l, isJsWS c = true := by
  have h2 : (l.dropWhile isJsWS).reverse.dropWhile isJsWS = [] := by
    have := congrArg List.reverse h
    simpa [jsTrim] using this
  have h3 : ∀ c ∈ (l.dropWhile isJsWS).reverse, isJsWS c = true :=
    List.dropWhile_eq_nil_iff.mp h2
  have h4 : ∀ c ∈ l.dropWhile isJsWS, isJsWS c = true := by
    intro c hc
    exact h3 c (List.mem_reverse.mpr hc)
  intro c hc
  rw [← List.takeWhile_append_dropWhile (p := isJsWS) (l := l)] at hc
  rcases List.mem_append.mp hc with h5 | h5
  · exact List.mem_takeWhile_imp h5
  · exact h4 c h5

/-- Occurrence is preserved by surrounding context. -/
theorem hasSub_context (p m x y : List Char) (h : hasSub p m) :
    hasSub p (x ++ m ++ y) := by
  obtain ⟨a, b, rfl⟩ := h
  exact ⟨x ++ a, b ++ y, by simp⟩

theorem hasSub_refl (p : List Char) : hasSub p p := ⟨[], [], by simp⟩

theorem hasSub_nil (l : List Char) : hasSub [] l := ⟨[], l, by simp⟩

/-!
Structural lemmas about the header matcher.
-/

/-- Shape of one preamble iteration: a non-hash character, a non-empty
run of dot-matched characters, then a non-empty run of newlines; the
match is a prefix decomposition of the input. -/
theorem matchPreLine_sound (l m r : List Char) (h : matchPreLine l = some (m, r)) :
    l = m ++ r ∧
    ∃ c line nls, c ≠ '#' ∧ line ≠ [] ∧ (∀ x ∈ line, isRegexDot x = true) ∧
      nls ≠ [] ∧ (∀ x ∈ nls, x = '\n') ∧ m = c :: (line ++ nls) := by
  cases l with
  | nil => cases h
  | cons c rest =>
    by_cases hc : c = '#'
    · simp [matchPreLine, hc] at h
    · simp only [matchPreLine, hc, if_false] at h
      by_cases hline : rest.takeWhile isRegexDot = []
      · simp [hline] at h
      · by_cases hnls : (rest.dropWhile isRegexDot).takeWhile (fun x => x = '\n') = []
        · simp [hline, hnls] at h
        · simp only [hline, hnls, if_false, Option.some.injEq, Prod.mk.injEq] at h
          obtain ⟨hm, hr⟩ := h
          constructor
          · rw [← hm, ← hr]
            have e1 : rest.takeWhile isRegexDot ++ rest.dropWhile isRegexDot = rest :=
              List.takeWhile_append_dropWhile _ _
            have e2 : (rest.dropWhile isRegexDot).takeWhile (fun x => x = '\n') ++
                (rest.dropWhile isRegexDot).dropWhile (fun x => x = '\n') =
                rest.dropWhile isRegexDot :=
              List.takeWhile_append_dropWhile _ _
            simp only [List.cons_append, List.append_assoc]
            rw [e2, e1]
          · refine ⟨c, rest.takeWhile isRegexDot,
              (rest.dropWhile isRegexDot).takeWhile (fun x => x = '\n'),
              hc, hline, ?_, hnls, ?_, hm.symm⟩
            · intro x hx
              exact List.mem_takeWhile_imp hx
            · intro x hx
              have := List.mem_takeWhile_imp hx
              simpa using this

/-- Same decomposition for the mandatory heading-line match. -/
theorem matchHeadLine_sound (l m r : List Char) (h : matchHeadLine l = some (m, r)) :
    l = m ++ r ∧
    ∃ line nls, line ≠ [] ∧ (∀ x ∈ line, isRegexDot x = true) ∧
      nls ≠ [] ∧ (∀ x ∈ nls, x = '\n') ∧ m = '#' :: ' ' :: (line ++ nls) := by
  cases l with
  | nil => cases h
  | cons c1 l1 =>
    cases l1 with
    | nil => cases h
    | cons c2 rest =>
      by_cases hc1 : c1 = '#'
      · by_cases hc2 : c2 = ' '
        · subst hc1; subst hc2
          simp only [matchHeadLine, if_true] at h
          by_cases hline : rest.takeWhile isRegexDot = []
          · simp [hline] at h
          · by_cases hnls : (rest.dropWhile isRegexDot).takeWhile (fun x => x = '\n') = []
            · simp [hline, hnls] at h
            · simp only [hline, hnls, if_false, Option.some.injEq, Prod.mk.injEq] at h
              obtain ⟨hm, hr⟩ := h
              constructor
              · rw [← hm, ← hr]
                have e1 : rest.takeWhile isRegexDot ++ rest.dropWhile isRegexDot = rest :=
                  List.takeWhile_append_dropWhile _ _
                have e2 : (rest.dropWhile isRegexDot).takeWhile (fun x => x = '\n') ++
                    (rest.dropWhile isRegexDot).dropWhile (fun x => x = '\n') =
                    rest.dropWhile isRegexDot :=
                  List.takeWhile_append_dropWhile _ _
                simp only [List.cons_append, List.append_assoc]
                rw [e2, e1]
              · refine ⟨rest.takeWhile isRegexDot,
                  (rest.dropWhile isRegexDot).takeWhile (fun x => x = '\n'),
                  hline, ?_, hnls, ?_, hm.symm⟩
                · intro x hx
                  exact List.mem_takeWhile_imp hx
                · intro x hx
                  have := List.mem_takeWhile_imp hx
                  simpa using this
        · simp [matchHeadLine, hc1, hc2] at h
      · simp [matchHeadLine, hc1] at h

/-- The preamble blocks recognised by the group
`(?:(?:>.+\n+)|(?:[^#].+\n+))*`: zero or more lines, each beginning with
a non-hash character followed by at least one dot-matched character and
at least one newline. -/
inductive PreBlocks : List Char → Prop where
| nil : PreBlocks []
| cons {c : Char} {line nls rest : List Char} :
    c ≠ '#' → line ≠ [] → (∀ x ∈ line, isRegexDot x = true) →
    nls ≠ [] → (∀ x ∈ nls, x = '\n') →
    PreBlocks rest → PreBlocks (c :: (line ++ (nls ++ rest)))

theorem matchPreLinesF_sound :
    ∀ (fuel : Nat) (l : List Char),
      (matchPreLinesF fuel l).1 ++ (matchPreLinesF fuel l).2 = l ∧
      PreBlocks (matchPreLinesF fuel l).1 := by
  intro fuel
  induction fuel with
  | zero => intro l; exact ⟨rfl, PreBlocks.nil⟩
  | succ n ih =>
    intro l
    cases hm : matchPreLine l with
    | none => simp [matchPreLinesF, hm, PreBlocks.nil]
    | some p =>
      obtain ⟨m, r⟩ := p
      obtain ⟨hlmr, c, line, nls, hc, hline, hdot, hnls, hnl, hmshape⟩ :=
        matchPreLine_sound l m r hm
      obtain ⟨ihr1, ihr2⟩ := ih r
      have hunfold : matchPreLinesF (n + 1) l =
          (m ++ (matchPreLinesF n r).1, (matchPreLinesF n r).2) := by
        simp [matchPreLinesF, hm]
      rw [hunfold]
      constructor
      · show m ++ (matchPreLinesF n r).1 ++ (matchPreLinesF n r).2 = l
        rw [List.append_assoc, ihr1, ← hlmr]
      · show PreBlocks (m ++ (matchPreLinesF n r).1)
        rw [hmshape]
        have : c :: (line ++ nls) ++ (matchPreLinesF n r).1 =
            c :: (line ++ (nls ++ (matchPreLinesF n r).1)) := by
          simp [List.append_assoc]
        rw [this]
        exact PreBlocks.cons hc hline hdot hnls hnl ihr2

/-- The header+preamble shape recognised by the full pattern. -/
def HeaderShape (h : List Char) : Prop :=
  ∃ line nls pre, line ≠ [] ∧ (∀ x ∈ line, isRegexDot x = true) ∧
    nls ≠ [] ∧ (∀ x ∈ nls, x = '\n') ∧ PreBlocks pre ∧
    h = '#' :: ' ' :: (line ++ (nls ++ pre))

/-- Soundness of the full header match: the matched string is a prefix of
the document of the recognised shape. -/
theorem matchHeader_sound (doc h : List Char) (hm : matchHeader doc = some h) :
    doc = h ++ doc.drop h.length ∧ HeaderShape h := by
  cases hml : matchHeadLine doc with
  | none => rw [matchHeader, hml] at hm; cases hm
  | some p =>
    obtain ⟨m, r⟩ := p
    rw [matchHeader, hml] at hm
    simp only [Option.some.injEq] at hm
    obtain ⟨hdmr, line, nls, hline, hdot, hnls, hnl, hmshape⟩ :=
      matchHeadLine_sound doc m r hml
    obtain ⟨hpre1, hpre2⟩ := matchPreLinesF_sound r.length r
    have hdoc : doc = h ++ (matchPreLinesF r.length r).2 := by
      rw [← hm, hdmr]
      conv_lhs => rw [← hpre1]
      simp [List.append_assoc]
    have h2 : doc.drop h.length = (matchPreLinesF r.length r).2 := by
      rw [hdoc]
      exact drop_len_append _ _
    constructor
    · rw [h2]
      exact hdoc
    · refine ⟨line, nls, (matchPreLinesF r.length r).1, hline, hdot, hnls, hnl, hpre2, ?_⟩
      rw [← hm, hmshape]
      simp [List.append_assoc]

/-- A document of whitespace only cannot match the header pattern (its
first character is not a hash mark). -/
theorem matchHeader_none_of_ws (doc : List Char) (h : ∀ c ∈ doc, isJsWS c = true) :
    matchHeader doc = none := by
  cases doc with
  | nil => rfl
  | cons a t =>
    cases t with
    | nil => rfl
    | cons b t2 =>
      have ha : isJsWS a = true := h a (List.mem_cons_self _ _)
      have hne : a ≠ '#' := by
        intro e
        rw [e] at ha
        exact absurd ha (by decide)
      rw [matchHeader, matchHeadLine]
      simp [hne]

/-- Any document accepted by the mandatory part of the header pattern has
a level-1 heading as its first line. -/
theorem specLevel1_of_hash_space (X : List Char) :
    specLevel1 ((linesKeepNL ('#' :: ' ' :: X)).headD []) = true := by
  have htw : ('#' :: ' ' :: X).takeWhile (fun x => x ≠ '\n') =
      '#' :: ' ' :: X.takeWhile (fun x => x ≠ '\n') := by
    simp [List.takeWhile_cons]
  have hdw : ('#' :: ' ' :: X).dropWhile (fun x => x ≠ '\n') =
      X.dropWhile (fun x => x ≠ '\n') := by
    simp [List.dropWhile_cons]
  show specLevel1 ((linesKeepNLF ('#' :: ' ' :: X).length ('#' :: ' ' :: X)).headD []) = true
  simp only [List.length_cons]
  simp only [linesKeepNLF, htw, hdw]
  cases hd : X.dropWhile (fun x => x ≠ '\n') with
  | nil => simp [specLevel1]
  | cons d ds =>
    by_cases hdn : d = '\n'
    · subst hdn
      simp [specLevel1]
    · split
      · rename_i r heq
        injection heq with h1 h2
        exact absurd h1 hdn
      · simp [specLevel1]

/-!
The claims.
-/

deriving instance DecidableEq for Except

/-- Claim C8: configuration resolution maps provider "openai" to the fixed
default endpoint, "openrouter" to the fixed alternate endpoint, any
provider beginning with "http" (e.g. "httpsomething-custom") to that
string verbatim, and fails with the unknown-provider configuration error
for every other provider value (e.g. "unknown-x"). -/
theorem claim_C8 :
    resolveBaseURL (str "openai") = .ok (str "https://api.openai.com/v1") ∧
    resolveBaseURL (str "openrouter") = .ok (str "https://openrouter.ai/api/v1") ∧
    (∀ p : List Char, isPre (str "http") p = true → resolveBaseURL p = .ok p) ∧
    (∀ p : List Char, p ≠ str "openai" → p ≠ str "openrouter" →
      isPre (str "http") p = false →
      resolveBaseURL p = .error (ConfigError.unknownProvider p)) ∧
    resolveBaseURL (str "httpsomething-custom") = .ok (str "httpsomething-custom") ∧
    resolveBaseURL (str "unknown-x") = .error (ConfigError.unknownProvider (str "unknown-x")) := by
  refine ⟨by decide, by decide, ?_, ?_, by decide, by decide⟩
  · intro p h
    have h1 : p ≠ str "openai" := by
      intro e
      rw [e] at h
      exact absurd h (by decide)
    have h2 : p ≠ str "openrouter" := by
      intro e
      rw [e] at h
      exact absurd h (by decide)
    simp [resolveBaseURL, h1, h2, h]
  · intro p h1 h2 h3
    simp [resolveBaseURL, h1, h2, h3]

/-- Witness for claim C8 at a concrete custom-endpoint provider. -/
theorem wit_C8 : resolveBaseURL (str "httpx") = .ok (str "httpx") :=
  claim_C8.2.2.1 (str "httpx") (by decide)

/-- Claim C6: for every document that does not exist or contains only
whitespace, the merged result is the fixed default header followed
immediately by the new entry. -/
theorem claim_C6 : ∀ (entry : List Char) (file : Option (List Char)),
    (∀ doc, file = some doc → ∀ c ∈ doc, isJsWS c = true) →
    prependToChangelog entry file = defaultHeader ++ entry := by
  intro entry file h
  cases file with
  | none => rfl
  | some doc =>
    have hws := h doc rfl
    have hmh : matchHeader doc = none := matchHeader_none_of_ws doc hws
    have htr : jsTrim doc = [] := jsTrim_nil_of_all doc hws
    simp [prependToChangelog, hmh, htr]

/-- Witness for claim C6 at a concrete whitespace-only document. -/
theorem wit_C6 :
    prependToChangelog (str "E\n") (some (str " \n")) = defaultHeader ++ str "E\n" :=
  claim_C6 (str "E\n") (some (str " \n"))
    (by
      intro doc hd c hc
      injection hd with hd
      rw [← hd] at hc
      have hall : ∀ x ∈ str " \n", isJsWS x = true := by decide
      exact hall c hc)

/-- Claim C9: the stored details keep the full commit-message and
changed-file lists in upstream order; the 5-commit/10-file truncation
affects only the built prompt (truncating the stored lists first does not
change the prompt). -/
theorem claim_C9 : ∀ (pr : PRData) (now : List Char) (commits : List CommitData)
    (reviews : List Review) (files : List FileData),
    (mkDetails pr now commits reviews files).commits.length = commits.length ∧
    (mkDetails pr now commits reviews files).filesChanged.length = files.length ∧
    (∀ i : Nat, (mkDetails pr now commits reviews files).commits[i]? =
      (commits[i]?).map CommitData.message) ∧
    (∀ i : Nat, (mkDetails pr now commits reviews files).filesChanged[i]? =
      (files[i]?).map FileData.filename) ∧
    buildPrompt (mkDetails pr now commits reviews files) =
      buildPrompt { mkDetails pr now commits reviews files with
        commits := (mkDetails pr now commits reviews files).commits.take 5,
        filesChanged := (mkDetails pr now commits reviews files).filesChanged.take 10 } := by
  intro pr now commits reviews files
  refine ⟨by simp [mkDetails], by simp [mkDetails], ?_, ?_, ?_⟩
  · intro i
    simp [mkDetails, List.getElem?_map]
  · intro i
    simp [mkDetails, List.getElem?_map]
  · simp only [buildPrompt, mkDetails, commitSummary, filesSummary, List.take_take]
    norm_num

theorem approvedLogins_mem (reviews : List Review) (l : List Char) :
    l ∈ approvedLogins reviews ↔
      (l ≠ [] ∧ ∃ rv ∈ reviews, rv.state = str "APPROVED" ∧ rv.login = some l) := by
  unfold approvedLogins
  rw [List.mem_filterMap]
  constructor
  · rintro ⟨o, ho, hfo⟩
    rw [List.mem_map] at ho
    obtain ⟨rv, hrv, rfl⟩ := ho
    rw [List.mem_filter] at hrv
    obtain ⟨hrv, hstate⟩ := hrv
    cases hlogin : rv.login with
    | none => rw [hlogin] at hfo; cases hfo
    | some x =>
      rw [hlogin] at hfo
      by_cases hx : x = []
      · simp [hx] at hfo
      · simp only [hx, if_false] at hfo
        have hxl : x = l := by
          by_cases hc : x = l
          · exact hc
          · simp [hc] at hfo
        subst hxl
        exact ⟨hx, rv, hrv, by simpa using hstate, hlogin⟩
  · rintro ⟨hl, rv, hrv, hstate, hlogin⟩
    refine ⟨rv.login, ?_, ?_⟩
    · rw [List.mem_map]
      exact ⟨rv, List.mem_filter.mpr ⟨hrv, by simp [hstate]⟩, rfl⟩
    · rw [hlogin]
      simp [hl]

/-- Claim C5: the aggregated reviewer set contains exactly the distinct
non-blank logins of reviews in the approved state (encoded "APPROVED" by
the upstream API), without duplicates; in particular three approvals from
two distinct logins yield exactly two reviewers. -/
theorem claim_C5 : ∀ (pr : PRData) (now : List Char) (commits : List CommitData)
    (reviews : List Review) (files : List FileData),
    (∀ login : List Char,
      login ∈ (mkDetails pr now commits reviews files).reviewers ↔
        (login ≠ [] ∧ ∃ rv ∈ reviews, rv.state = str "APPROVED" ∧ rv.login = some login)) ∧
    (mkDetails pr now commits reviews files).reviewers.Nodup ∧
    (∀ l1 l2 : List Char, l1 ≠ l2 → l1 ≠ [] → l2 ≠ [] →
      (approvedReviewers [⟨str "APPROVED", some l1⟩, ⟨str "APPROVED", some l1⟩,
        ⟨str "APPROVED", some l2⟩]).length = 2) := by
  intro pr now commits reviews files
  have hrv : (mkDetails pr now commits reviews files).reviewers = approvedReviewers reviews := rfl
  refine ⟨?_, ?_, ?_⟩
  · intro login
    rw [hrv]
    show login ∈ jsDedup (approvedLogins reviews) ↔ _
    rw [mem_jsDedup, approvedLogins_mem]
  · rw [hrv]
    exact nodup_jsDedup _
  · intro l1 l2 h12 h1 h2
    have h21 : l2 ≠ l1 := Ne.symm h12
    show (jsDedup (approvedLogins _)).length = 2
    have hlog : approvedLogins [⟨str "APPROVED", some l1⟩, ⟨str "APPROVED", some l1⟩,
        ⟨str "APPROVED", some l2⟩] = [l1, l1, l2] := by
      simp [approvedLogins, List.filter, List.filterMap, h1, h2]
    rw [hlog]
    show (jsDedupAux [l1, l1, l2] []).length = 2
    simp [jsDedupAux, h21]

/-- Witness for claim C5: three approvals, two distinct logins, two
reviewers. -/
theorem wit_C5 :
    (approvedReviewers [⟨str "APPROVED", some (str "alice")⟩,
      ⟨str "APPROVED", some (str "alice")⟩,
      ⟨str "APPROVED", some (str "bob")⟩]).length = 2 :=
  (claim_C5 ⟨1, str "t", none, none, none, none⟩ [] [] [] []).2.2
    (str "alice") (str "bob") (by decide) (by decide) (by decide)

/-- Claim C4: every stage failure (detail aggregation, content generation,
or an empty model response) propagates to the caller with no write to the
changelog document; when every stage succeeds the document is rewritten
exactly once. -/
theorem claim_C4 : ∀ (pr : PRData) (now : List Char)
    (commitsR : Except (List Char) (List CommitData))
    (reviewsR : Except (List Char) (List Review))
    (filesR : Except (List Char) (List FileData))
    (api : List Char → Except (List Char) (Option (List Char)))
    (file : Option (List Char)),
    ((∃ e, (generateEntry pr now commitsR reviewsR filesR api file).result = .error e) →
      (generateEntry pr now commitsR reviewsR filesR api file).writes = []) ∧
    ((∃ v, (generateEntry pr now commitsR reviewsR filesR api file).result = .ok v) →
      (generateEntry pr now commitsR reviewsR filesR api file).writes.length = 1) ∧
    (∀ e, commitsR = .error e →
      (generateEntry pr now commitsR reviewsR filesR api file).result = .error e) ∧
    (∀ e commits, commitsR = .ok commits → reviewsR = .error e →
      (generateEntry pr now commitsR reviewsR filesR api file).result = .error e) ∧
    (∀ e commits reviews, commitsR = .ok commits → reviewsR = .ok reviews →
      filesR = .error e →
      (generateEntry pr now commitsR reviewsR filesR api file).result = .error e) ∧
    (∀ e commits reviews files, commitsR = .ok commits → reviewsR = .ok reviews →
      filesR = .ok files →
      api (buildPrompt (mkDetails pr now commits reviews files)) = .error e →
      (generateEntry pr now commitsR reviewsR filesR api file).result = .error e) ∧
    (∀ commits reviews files, commitsR = .ok commits → reviewsR = .ok reviews →
      filesR = .ok files →
      (api (buildPrompt (mkDetails pr now commits reviews files)) = .ok none ∨
        api (buildPrompt (mkDetails pr now commits reviews files)) = .ok (some [])) →
      (generateEntry pr now commitsR reviewsR filesR api file).result =
        .error (str "No response from OpenAI")) := by
  intro pr now commitsR reviewsR filesR api file
  refine ⟨?_, ?_, ?_, ?_, ?_, ?_, ?_⟩
  · rintro ⟨e, he⟩
    cases hf : fetchPRDetails pr now commitsR reviewsR filesR with
    | error e2 => simp [generateEntry, hf]
    | ok d =>
      cases hg : generateWithAI api d with
      | error e2 => simp [generateEntry, hf, hg]
      | ok v => simp [generateEntry, hf, hg] at he
  · rintro ⟨v, hv⟩
    cases hf : fetchPRDetails pr now commitsR reviewsR filesR with
    | error e2 => simp [generateEntry, hf] at hv
    | ok d =>
      cases hg : generateWithAI api d with
      | error e2 => simp [generateEntry, hf, hg] at hv
      | ok w => simp [generateEntry, hf, hg]
  · rintro e rfl
    simp [generateEntry, fetchPRDetails]
  · rintro e commits rfl rfl
    simp [generateEntry, fetchPRDetails]
  · rintro e commits reviews rfl rfl rfl
    simp [generateEntry, fetchPRDetails]
  · rintro e commits reviews files rfl rfl rfl hapi
    simp [generateEntry, fetchPRDetails, generateWithAI, hapi]
  · rintro commits reviews files rfl rfl rfl hapi
    rcases hapi with hapi | hapi
    · simp [generateEntry, fetchPRDetails, generateWithAI, hapi]
    · simp [generateEntry, fetchPRDetails, generateWithAI, hapi]

/-- Witness for claim C4: a failing commit query propagates its error. -/
theorem wit_C4 :
    (generateEntry ⟨1, str "t", none, none, none, none⟩ (str "2024-01-01T00:00:00Z")
      (.error (str "boom")) (.ok []) (.ok [])
      (fun _ => .ok (some (str "c"))) none).result = .error (str "boom") :=
  (claim_C4 ⟨1, str "t", none, none, none, none⟩ (str "2024-01-01T00:00:00Z")
    (.error (str "boom")) (.ok []) (.ok [])
    (fun _ => .ok (some (str "c"))) none).2.2.1 (str "boom") rfl

/-- Claim C3 (amended): the built prompt contains the title; the body or
the fixed placeholder when the body is empty; the commit summary built
from at most the first 5 commits, each rendered as a dash-space bullet
followed by the first line of its message; the first 10 changed-file
paths joined by comma; and the label list joined by comma or the literal
word "none" when the label list is empty.  With 7 commits the commit
summary consists of exactly 5 lines, the i-th being the bullet followed
by the first line of the i-th commit message. -/
theorem claim_C3 : ∀ (d : Details),
    hasSub d.title (buildPrompt d) ∧
    hasSub (if d.body = [] then str "No description provided." else d.body) (buildPrompt d) ∧
    hasSub (joinSep (str "\n") ((d.commits.take 5).map (fun c => str "- " ++ firstLine c)))
      (buildPrompt d) ∧
    hasSub (joinSep (str ", ") (d.filesChanged.take 10)) (buildPrompt d) ∧
    hasSub (if d.labels = [] then str "none" else joinSep (str ", ") d.labels)
      (buildPrompt d) ∧
    (d.commits.length = 7 →
      jsSplit (str "\n") (commitSummary d.commits) =
        (d.commits.take 5).map (fun c => str "- " ++ firstLine c) ∧
      (jsSplit (str "\n") (commitSummary d.commits)).length = 5) := by
  intro d
  refine ⟨?_, ?_, ?_, ?_, ?_, ?_⟩
  · exact ⟨str "Generate a changelog entry for this merged pull request:\n\n**Title:** ",
      str "\n\n**Description:**\n" ++
      (if d.body = [] then str "No description provided." else d.body) ++
      str "\n\n**Commits:**\n" ++ commitSummary d.commits ++
      str "\n\n**Files changed:** " ++ filesSummary d.filesChanged ++
      str "\n\n**Labels:** " ++ labelsText d.labels ++
      str "\n\nWrite a user-friendly changelog entry with:\n1. A short, descriptive title (with appropriate emoji)\n2. 1-2 sentences explaining the change in plain language\n3. Optional: 2-3 bullet points if there are multiple aspects\n\nFocus on the user impact, not implementation details.",
      by simp [buildPrompt, List.append_assoc]⟩
  · exact ⟨str "Generate a changelog entry for this merged pull request:\n\n**Title:** " ++
      d.title ++ str "\n\n**Description:**\n",
      str "\n\n**Commits:**\n" ++ commitSummary d.commits ++
      str "\n\n**Files changed:** " ++ filesSummary d.filesChanged ++
      str "\n\n**Labels:** " ++ labelsText d.labels ++
      str "\n\nWrite a user-friendly changelog entry with:\n1. A short, descriptive title (with appropriate emoji)\n2. 1-2 sentences explaining the change in plain language\n3. Optional: 2-3 bullet points if there are multiple aspects\n\nFocus on the user impact, not implementation details.",
      by simp [buildPrompt, List.append_assoc]⟩
  · exact ⟨str "Generate a changelog entry for this merged pull request:\n\n**Title:** " ++
      d.title ++ str "\n\n**Description:**\n" ++
      (if d.body = [] then str "No description provided." else d.body) ++
      str "\n\n**Commits:**\n",
      str "\n\n**Files changed:** " ++ filesSummary d.filesChanged ++
      str "\n\n**Labels:** " ++ labelsText d.labels ++
      str "\n\nWrite a user-friendly changelog entry with:\n1. A short, descriptive title (with appropriate emoji)\n2. 1-2 sentences explaining the change in plain language\n3. Optional: 2-3 bullet points if there are multiple aspects\n\nFocus on the user impact, not implementation details.",
      by simp [buildPrompt, commitSummary, List.append_assoc]⟩
  · exact ⟨str "Generate a changelog entry for this merged pull request:\n\n**Title:** " ++
      d.title ++ str "\n\n**Description:**\n" ++
      (if d.body = [] then str "No description provided." else d.body) ++
      str "\n\n**Commits:**\n" ++ commitSummary d.commits ++
      str "\n\n**Files changed:** ",
      str "\n\n**Labels:** " ++ labelsText d.labels ++
      str "\n\nWrite a user-friendly changelog entry with:\n1. A short, descriptive title (with appropriate emoji)\n2. 1-2 sentences explaining the change in plain language\n3. Optional: 2-3 bullet points if there are multiple aspects\n\nFocus on the user impact, not implementation details.",
      by simp [buildPrompt, filesSummary, List.append_assoc]⟩
  · by_cases hlab : d.labels = []
    · have hlt : labelsText d.labels = str "none" := by rw [hlab]; rfl
      rw [hlab]
      simp only [if_true]
      refine ⟨str "Generate a changelog entry for this merged pull request:\n\n**Title:** " ++
        d.title ++ str "\n\n**Description:**\n" ++
        (if d.body = [] then str "No description provided." else d.body) ++
        str "\n\n**Commits:**\n" ++ commitSummary d.commits ++
        str "\n\n**Files changed:** " ++ filesSummary d.filesChanged ++
        str "\n\n**Labels:** ",
        str "\n\nWrite a user-friendly changelog entry with:\n1. A short, descriptive title (with appropriate emoji)\n2. 1-2 sentences explaining the change in plain language\n3. Optional: 2-3 bullet points if there are multiple aspects\n\nFocus on the user impact, not implementation details.",
        ?_⟩
      rw [← hlt]
      simp [buildPrompt, List.append_assoc]
    · by_cases hj : joinSep (str ", ") d.labels = []
      · rw [if_neg hlab, hj]
        exact hasSub_nil _
      · have hlt : labelsText d.labels = joinSep (str ", ") d.labels := by
          simp [labelsText, hj]
        rw [if_neg hlab]
        refine ⟨str "Generate a changelog entry for this merged pull request:\n\n**Title:** " ++
          d.title ++ str "\n\n**Description:**\n" ++
          (if d.body = [] then str "No description provided." else d.body) ++
          str "\n\n**Commits:**\n" ++ commitSummary d.commits ++
          str "\n\n**Files changed:** " ++ filesSummary d.filesChanged ++
          str "\n\n**Labels:** ",
          str "\n\nWrite a user-friendly changelog entry with:\n1. A short, descriptive title (with appropriate emoji)\n2. 1-2 sentences explaining the change in plain language\n3. Optional: 2-3 bullet points if there are multiple aspects\n\nFocus on the user impact, not implementation details.",
          ?_⟩
        rw [← hlt]
        simp [buildPrompt, List.append_assoc]
  · intro h7
    have hlen5 : ((d.commits.take 5).map (fun c => str "- " ++ firstLine c)).length = 5 := by
      simp [List.length_map, List.length_take, h7]
    have hps : ((d.commits.take 5).map (fun c => str "- " ++ firstLine c)) ≠ [] := by
      intro he
      rw [he] at hlen5
      cases hlen5
    have hnl : ∀ p ∈ (d.commits.take 5).map (fun c => str "- " ++ firstLine c), '\n' ∉ p := by
      intro p hp
      rw [List.mem_map] at hp
      obtain ⟨c, _, rfl⟩ := hp
      intro hm
      rcases List.mem_append.mp hm with h | h
      · have : ('\n' : Char) ∉ str "- " := by decide
        exact this h
      · exact not_newline_mem_firstLine c h
    have hsplit := jsSplit_joinSep '\n'
      ((d.commits.take 5).map (fun c => str "- " ++ firstLine c)) hps hnl
    constructor
    · exact hsplit
    · rw [show jsSplit (str "\n") (commitSummary d.commits) =
        (d.commits.take 5).map (fun c => str "- " ++ firstLine c) from hsplit]
      exact hlen5

/-- Concrete details record with seven commits, used to witness claim C3. -/
def details7 : Details :=
  ⟨str "T", str "B", str "a", [],
    [str "c1 x\nrest", str "c2", str "c3", str "c4", str "c5", str "c6", str "c7"],
    [str "f1"], [], str "2024-01-01T00:00:00Z"⟩

/-- Claim C3, counterexample to the claim as stated: with 7 commits the
prompt's commit summary has 5 lines, but no line equals the bare first
line of its commit message - the source renders each as a dash-space
bullet followed by the first line, so already the first summary line
differs from the first commit's first line. -/
theorem cex_C3 :
    details7.commits.length = 7 ∧
    (jsSplit (str "\n") (commitSummary details7.commits)).headD [] ≠
      firstLine (details7.commits.headD []) := by
  constructor
  · decide
  · decide

/-- Witness for claim C3: with seven commits the commit summary splits
into exactly the five bulleted first lines. -/
theorem wit_C3 :
    jsSplit (str "\n") (commitSummary details7.commits) =
      (details7.commits.take 5).map (fun c => str "- " ++ firstLine c) ∧
    (jsSplit (str "\n") (commitSummary details7.commits)).length = 5 :=
  (claim_C3 details7).2.2.2.2.2 rfl

/-- Claim C2, counterexample to the claim as stated: the formatted
attribution line is not the bare `Shipped by @alice` (the source bolds
the labels with markdown asterisks), in both the no-reviewer and the
two-reviewer case. -/
theorem cex_C2 :
    attributionOf ⟨str "t", str "b", str "alice", [], [], [], [],
      str "2024-01-01T00:00:00Z"⟩ ≠ str "Shipped by @alice" ∧
    attributionOf ⟨str "t", str "b", str "alice", [str "bob", str "carol"], [], [], [],
      str "2024-01-01T00:00:00Z"⟩ ≠
      str "Shipped by @alice • Reviewed by @bob, @carol" := by
  constructor
  · decide
  · decide

/-- Closed form of the attribution line for authors without a bullet
character. -/
theorem attributionOf_closed_form : ∀ (d : Details), '•' ∉ d.author →
    attributionOf d =
      if d.reviewers = [] then str "**Shipped by** @" ++ d.author
      else str "**Shipped by** @" ++ d.author ++ str " • **Reviewed by** " ++
        joinSep (str ", ") (d.reviewers.map (fun r => '@' :: r)) := by
  intro d hb
  by_cases hr : d.reviewers = []
  · rw [if_pos hr]
    simp [attributionOf, hr]
  · obtain ⟨v, vs, hv⟩ : ∃ v vs, d.reviewers = v :: vs := by
      cases hx : d.reviewers with
      | nil => exact absurd hx hr
      | cons v vs => exact ⟨v, vs, rfl⟩
    rw [if_neg hr]
    have hlen : d.reviewers.length > 0 := by rw [hv]; simp
    simp only [attributionOf, hlen, if_true]
    have hc : (d.author :: d.reviewers).map (fun u => '@' :: u) =
        ('@' :: d.author) :: ('@' :: v) :: vs.map (fun u => '@' :: u) := by
      rw [hv]; rfl
    rw [hc, joinSep_cons_cons]
    rw [List.append_assoc ('@' :: d.author) (str " • ")
      (joinSep (str " • ") (('@' :: v) :: vs.map (fun u => '@' :: u)))]
    rw [contributors_split_head d.author
      (joinSep (str " • ") (('@' :: v) :: vs.map (fun u => '@' :: u))) hb]
    have hat : str "**Shipped by** " ++ ('@' :: d.author) =
        str "**Shipped by** @" ++ d.author := by
      rw [List.append_cons (str "**Shipped by** ") '@' d.author]
      rfl
    rw [hat]

/-- Claim C2 (amended): with no reviewers the attribution line equals
`**Shipped by** @author`; with reviewers it equals
`**Shipped by** @author • **Reviewed by** @r1, @r2, ...` (reviewers
joined by comma in reviewer-set order), for every author login not
containing the bullet character (the source recovers the author mention
by splitting the contributor string on the bullet separator). -/
theorem claim_C2 : ∀ (d : Details), '•' ∉ d.author →
    attributionOf d =
      if d.reviewers = [] then str "**Shipped by** @" ++ d.author
      else str "**Shipped by** @" ++ d.author ++ str " • **Reviewed by** " ++
        joinSep (str ", ") (d.reviewers.map (fun r => '@' :: r)) :=
  fun d hb => attributionOf_closed_form d hb

/-- Witness for claim C2 at author alice with reviewers bob and carol. -/
theorem wit_C2 :
    attributionOf ⟨str "t2", str "b2", str "alice", [str "bob", str "carol"], [], [], [],
      str "2024-01-01T00:00:00Z"⟩ =
      if ([str "bob", str "carol"] : List (List Char)) = [] then
        str "**Shipped by** @" ++ str "alice"
      else str "**Shipped by** @" ++ str "alice" ++ str " • **Reviewed by** " ++
        joinSep (str ", ") ([str "bob", str "carol"].map (fun r => '@' :: r)) :=
  claim_C2 ⟨str "t2", str "b2", str "alice", [str "bob", str "carol"], [], [], [],
    str "2024-01-01T00:00:00Z"⟩ (by decide)

/-- Claim C10: when the snapshot has no author login, the aggregated
author is the literal "unknown" and the formatted entry's attribution
names the contributor at-unknown. -/
theorem claim_C10 : ∀ (pr : PRData) (now : List Char) (commits : List CommitData)
    (reviews : List Review) (files : List FileData) (content : List Char),
    pr.user = none →
    (mkDetails pr now commits reviews files).author = str "unknown" ∧
    hasSub (str "@unknown") (formatEntry content (mkDetails pr now commits reviews files)) := by
  intro pr now commits reviews files content hu
  have hauthor : (mkDetails pr now commits reviews files).author = str "unknown" := by
    simp [mkDetails, hu]
  refine ⟨hauthor, ?_⟩
  have hb : '•' ∉ (mkDetails pr now commits reviews files).author := by
    rw [hauthor]
    decide
  have hattr := attributionOf_closed_form (mkDetails pr now commits reviews files) hb
  rw [hauthor] at hattr
  have hcat : str "**Shipped by** @" ++ str "unknown" =
      str "**Shipped by** " ++ str "@unknown" := by decide
  have hsub : hasSub (str "@unknown")
      (attributionOf (mkDetails pr now commits reviews files)) := by
    by_cases hr : (mkDetails pr now commits reviews files).reviewers = []
    · rw [if_pos hr] at hattr
      rw [hattr, hcat]
      exact ⟨str "**Shipped by** ", [], by simp⟩
    · rw [if_neg hr] at hattr
      rw [hattr, hcat]
      refine ⟨str "**Shipped by** ",
        str " • **Reviewed by** " ++ joinSep (str ", ")
          ((mkDetails pr now commits reviews files).reviewers.map (fun r => '@' :: r)), ?_⟩
      simp [List.append_assoc]
  have hfe : formatEntry content (mkDetails pr now commits reviews files) =
      (str "## " ++ jsDateToISODate (mkDetails pr now commits reviews files).mergedAt ++
        str "\n\n" ++ jsTrim content ++ str "\n\n") ++
      attributionOf (mkDetails pr now commits reviews files) ++ str "\n\n---\n\n" := by
    simp [formatEntry, List.append_assoc]
  rw [hfe]
  exact hasSub_context _ _ _ _ hsub

/-- Witness for claim C10 at a snapshot without an author login. -/
theorem wit_C10 :
    (mkDetails ⟨2, str "t", none, none, none, none⟩ (str "2024-01-01T00:00:00Z")
      [] [] []).author = str "unknown" ∧
    hasSub (str "@unknown")
      (formatEntry (str "Hi") (mkDetails ⟨2, str "t", none, none, none, none⟩
        (str "2024-01-01T00:00:00Z") [] [] [])) :=
  claim_C10 ⟨2, str "t", none, none, none, none⟩ (str "2024-01-01T00:00:00Z")
    [] [] [] (str "Hi") rfl

/-- Claim C1, counterexample to the claim as stated: on a document whose
header is followed by an entry-separator line, the source's header match
absorbs the separator (the regular expression accepts any non-heading
line of at least two characters), so the entry is inserted after the
separator, not before it as the claim's preamble description requires. -/
theorem cex_C1 :
    specLevel1 ((linesKeepNL (str "# T\n\n---\n\n## old\n")).headD []) = true ∧
    prependToChangelog (str "E\n") (some (str "# T\n\n---\n\n## old\n")) ≠
      specHeaderInsert (str "E\n") (str "# T\n\n---\n\n## old\n") := by
  constructor
  · decide
  · decide

/-- Claim C1 (amended): for every existing document matched by the
source's header pattern (a `# ` heading line terminated by newlines,
then zero or more newline-terminated non-heading lines of at least two
characters — a block that also absorbs entry-separator lines such as
`---`), merging inserts the new entry immediately after the matched
block, keeps that block unchanged, and leaves the remainder of the
document byte-identical. -/
theorem claim_C1 : ∀ (entry doc header : List Char),
    matchHeader doc = some header →
    prependToChangelog entry (some doc) = header ++ entry ++ doc.drop header.length ∧
    header ++ doc.drop header.length = doc ∧
    HeaderShape header := by
  intro entry doc header hm
  obtain ⟨hdoc, hshape⟩ := matchHeader_sound doc header hm
  refine ⟨?_, hdoc.symm, hshape⟩
  simp [prependToChangelog, hm]

/-- Witness for claim C1 at a concrete headed document. -/
theorem wit_C1 :
    prependToChangelog (str "E\n") (some (str "# T\nabc\n## z\n")) =
      str "# T\nabc\n" ++ str "E\n" ++ (str "# T\nabc\n## z\n").drop (str "# T\nabc\n").length ∧
    str "# T\nabc\n" ++ (str "# T\nabc\n## z\n").drop (str "# T\nabc\n").length =
      str "# T\nabc\n## z\n" ∧
    HeaderShape (str "# T\nabc\n") :=
  claim_C1 (str "E\n") (str "# T\nabc\n## z\n") (str "# T\nabc\n") (by decide)

/-- Claim C7, counterexample to the claim as stated: a document holding a
single space is non-empty and has no leading heading, yet the source
treats it as blank (its trimmed content is empty) and synthesizes the
default header instead of prepending the entry to the prior content. -/
theorem cex_C7 :
    str " " ≠ ([] : List Char) ∧
    specLevel1 ((linesKeepNL (str " ")).headD []) = false ∧
    prependToChangelog (str "E\n") (some (str " ")) ≠ str "E\n" ++ str " " := by
  refine ⟨by decide, by decide, by decide⟩

/-- Claim C7 (amended): for every document containing at least one
non-whitespace character whose first line is not a level-1 heading, the
merged result is the new entry concatenated verbatim before the prior
full content. -/
theorem claim_C7 : ∀ (entry doc : List Char) (c0 : Char),
    c0 ∈ doc → isJsWS c0 = false →
    specLevel1 ((linesKeepNL doc).headD []) = false →
    prependToChangelog entry (some doc) = entry ++ doc := by
  intro entry doc c0 hc0 hws hlv
  have hmh : matchHeader doc = none := by
    cases hm : matchHeadLine doc with
    | none => rw [matchHeader, hm]
    | some p =>
      obtain ⟨m, r⟩ := p
      obtain ⟨hdoc, line, nls, hline, hdot, hnls, hnl, hmshape⟩ :=
        matchHeadLine_sound doc m r hm
      have hdoc2 : doc = '#' :: ' ' :: ((line ++ nls) ++ r) := by
        rw [hdoc, hmshape]
        simp
      have hlv2 : specLevel1 ((linesKeepNL doc).headD []) = true := by
        rw [hdoc2]
        exact specLevel1_of_hash_space _
      rw [hlv2] at hlv
      cases hlv
  have htr : ¬jsTrim doc = [] := by
    intro he
    have := all_of_jsTrim_nil doc he c0 hc0
    rw [hws] at this
    cases this
  simp [prependToChangelog, hmh, htr]

/-- Witness for claim C7 at a concrete unheaded document. -/
theorem wit_C7 :
    prependToChangelog (str "E\n") (some (str " x")) = str "E\n" ++ str " x" :=
  claim_C7 (str "E\n") (str " x") 'x' (by decide) (by decide) (by decide)
